import Mathlib

/-!
Verification of the HD key-derivation and address-encoding core declared in
`src/crypto.h` (a Ledger-style Bitcoin hardware-wallet module).

The repository ships only the header: struct layouts, macro constants and the
static-inline hash wrappers are source code; every other function body is
absent, so those operations are modelled from the specification (each such
definition carries a doc comment starting `Modelled from the spec:`).

External primitives (HMAC-SHA512, SHA-256, RIPEMD160, the elliptic curve
itself) are out of scope per the spec ("provided by an external
primitive-crypto provider"); they are taken as parameters of the model.
Bytes are `Nat` values; byte strings are `List Nat`.
-/

deriving instance DecidableEq for Except

namespace Crypto

/-- Big-endian value of a byte string (most significant byte first). -/
def beNat (bs : List Nat) : Nat := bs.foldl (fun a b => a * 256 + b) 0

/-- Big-endian encoding of `n` on `w` bytes (most significant byte first). -/
def beBytes : Nat → Nat → List Nat
  | 0, _ => []
  | w + 1, n => beBytes w (n / 256) ++ [n % 256]

theorem beBytes_length (w n : Nat) : (beBytes w n).length = w := by
  induction w generalizing n with
  | zero => rfl
  | succ w ih => simp [beBytes, ih]

theorem beNat_append_singleton (l : List Nat) (b : Nat) :
    beNat (l ++ [b]) = beNat l * 256 + b := by
  simp [beNat, List.foldl_append]

theorem beNat_beBytes (w n : Nat) (h : n < 256 ^ w) : beNat (beBytes w n) = n := by
  induction w generalizing n with
  | zero =>
    interval_cases n
    rfl
  | succ w ih =>
    rw [beBytes, beNat_append_singleton, ih (n / 256) ?_]
    · omega
    · have : 256 ^ (w + 1) = 256 * 256 ^ w := by ring
      rw [this] at h
      exact Nat.div_lt_of_lt_mul h

theorem beBytes_beNat (l : List Nat) (h : ∀ b ∈ l, b < 256) :
    beBytes l.length (beNat l) = l := by
  induction l using List.reverseRecOn with
  | nil => rfl
  | append_singleton l b ih =>
    have hb : b < 256 := h b (by simp)
    have hl : ∀ x ∈ l, x < 256 := fun x hx => h x (by simp [hx])
    simp only [List.length_append, List.length_singleton, beNat_append_singleton]
    rw [beBytes]
    have h1 : (beNat l * 256 + b) / 256 = beNat l := by omega
    have h2 : (beNat l * 256 + b) % 256 = b := by omega
    rw [h1, h2, ih hl]

/-!
## Serialized extended public key (src/crypto.h lines 34–46)

The C struct holds only `uint8_t` fields and fixed `uint8_t` arrays, so its
in-memory bytes are exactly the declared fields in declaration order.  Fields
are fixed-length big-endian byte arrays per the struct's doc comment.
-/

structure serialized_extended_pubkey_t where
  version : List Nat
  depth : Nat
  parent_fingerprint : List Nat
  child_number : List Nat
  chain_code : List Nat
  compressed_pubkey : List Nat
deriving DecidableEq

/-- Well-formedness: the C array sizes `4/1/4/4/32/33` of the struct fields. -/
def serialized_extended_pubkey_t.wf (x : serialized_extended_pubkey_t) : Prop :=
  x.version.length = 4 ∧ x.depth < 256 ∧ x.parent_fingerprint.length = 4 ∧
  x.child_number.length = 4 ∧ x.chain_code.length = 32 ∧ x.compressed_pubkey.length = 33

instance (x : serialized_extended_pubkey_t) : Decidable x.wf := by
  unfold serialized_extended_pubkey_t.wf; infer_instance

/-- The bytes of the struct, in the C declaration order. -/
def serialized_extended_pubkey_t.bytes (x : serialized_extended_pubkey_t) : List Nat :=
  x.version ++ [x.depth] ++ x.parent_fingerprint ++ x.child_number ++
    x.chain_code ++ x.compressed_pubkey

/-- `serialized_extended_pubkey_check_t` (src/crypto.h lines 43–46): the
serialized extended pubkey followed by a 4-byte checksum. -/
structure serialized_extended_pubkey_check_t where
  serialize_extended_pubkey : serialized_extended_pubkey_t
  checksum : List Nat
deriving DecidableEq

def serialized_extended_pubkey_check_t.wf (x : serialized_extended_pubkey_check_t) : Prop :=
  x.serialize_extended_pubkey.wf ∧ x.checksum.length = 4

instance (x : serialized_extended_pubkey_check_t) : Decidable x.wf := by
  unfold serialized_extended_pubkey_check_t.wf; infer_instance

def serialized_extended_pubkey_check_t.bytes (x : serialized_extended_pubkey_check_t) :
    List Nat :=
  x.serialize_extended_pubkey.bytes ++ x.checksum

/-!
## Hash-context wrappers (src/crypto.h lines 166–235)

`cx_hash` is the external provider's primitive: the model takes it as a
parameter mapping (context bytes absorbed so far, new input) to (new context,
return code).  The inline wrappers of the header are then direct translations.
`write_u16_be`/`write_u32_be` live in the missing `common/write.h`;
modelled from the spec: the wrappers' doc comments say the value is
"encoded in big-endian".
-/

/-- Modelled from the spec: `write_u16_be` of the missing `common/write.h`,
a 2-byte big-endian store. -/
def write_u16_be (d : Nat) : List Nat := beBytes 2 d

/-- Modelled from the spec: `write_u32_be` of the missing `common/write.h`,
a 4-byte big-endian store. -/
def write_u32_be (d : Nat) : List Nat := beBytes 4 d

/-- `crypto_hash_update` (src/crypto.h line 166): forwards to `cx_hash`. -/
def crypto_hash_update (cx_hash : List Nat → List Nat → List Nat × Int)
    (ctx inBytes : List Nat) : List Nat × Int :=
  cx_hash ctx inBytes

/-- `crypto_hash_update_u8` (src/crypto.h line 199). -/
def crypto_hash_update_u8 (cx_hash : List Nat → List Nat → List Nat × Int)
    (ctx : List Nat) (d : Nat) : List Nat × Int :=
  crypto_hash_update cx_hash ctx [d]

/-- `crypto_hash_update_u16` (src/crypto.h lines 214–218). -/
def crypto_hash_update_u16 (cx_hash : List Nat → List Nat → List Nat × Int)
    (ctx : List Nat) (d : Nat) : List Nat × Int :=
  crypto_hash_update cx_hash ctx (write_u16_be d)

/-- `crypto_hash_update_u32` (src/crypto.h lines 231–235). -/
def crypto_hash_update_u32 (cx_hash : List Nat → List Nat → List Nat × Int)
    (ctx : List Nat) (d : Nat) : List Nat × Int :=
  crypto_hash_update cx_hash ctx (write_u32_be d)

/-!
## Modular exponentiation

The external EC provider exposes modular arithmetic (`cx_math_powm` on the
device); the model implements it by square-and-multiply.
-/

def powModAux : Nat → Nat → Nat → Nat → Nat
  | 0, _, _, m => 1 % m
  | fuel + 1, b, e, m =>
    if e = 0 then 1 % m
    else ((if e % 2 = 1 then b % m else 1) * powModAux fuel ((b * b) % m) (e / 2) m) % m

/-- Square-and-multiply modular exponentiation (`e` is enough fuel since the
exponent at least halves each step). -/
def powMod (b e m : Nat) : Nat := powModAux e b e m

theorem powModAux_eq (fuel : Nat) : ∀ b e m, e ≤ fuel → powModAux fuel b e m = b ^ e % m := by
  induction fuel with
  | zero =>
    intro b e m he
    have : e = 0 := by omega
    simp [this, powModAux]
  | succ fuel ih =>
    intro b e m he
    rw [powModAux]
    by_cases h0 : e = 0
    · simp [h0]
    · have h2 : e / 2 ≤ fuel := by omega
      rw [if_neg h0, ih _ (e / 2) m h2, ← Nat.pow_mod]
      by_cases hp : e % 2 = 1
      · have heq : e = 2 * (e / 2) + 1 := by omega
        rw [if_pos hp]
        conv_rhs => rw [heq, pow_succ, pow_mul]
        rw [Nat.mul_mod ((b ^ 2) ^ (e / 2)) b m, sq]
        ring_nf
      · have heq : e = 2 * (e / 2) := by omega
        rw [if_neg hp, one_mul, Nat.mod_mod_of_dvd _ dvd_rfl]
        conv_rhs => rw [heq, pow_mul, sq]

theorem powMod_eq (b e m : Nat) : powMod b e m = b ^ e % m :=
  powModAux_eq e b e m (le_refl e)

theorem powMod_lt (b e m : Nat) (hm : 0 < m) : powMod b e m < m := by
  rw [powMod_eq]
  exact Nat.mod_lt _ hm

/-!
## Public-key compression and decompression (src/crypto.h lines 276, 290)

Only the declarations are in the repository; the bodies are modelled from the
spec (§4.3).  The elliptic curve itself belongs to the external primitive
provider, so the field modulus `p` is a parameter; the curve equation is the
Bitcoin-style short Weierstrass equation y² = x³ + 7, and the provider's
square root is y = c^((p+1)/4) mod p, valid for p ≡ 3 (mod 4).
-/

/-- Right-hand side x³ + 7 of the curve equation, reduced mod `p`. -/
def curveRhs (p x : Nat) : Nat := (x ^ 3 + 7) % p

/-- Modelled from the spec: `crypto_get_compressed_pubkey` (declaration at
src/crypto.h line 276, body missing).  Input: 65 bytes `0x04 ‖ x ‖ y`;
output: `(0x02 if y even else 0x03) ‖ x`.  Failure (negative C return)
is `none`. -/
def crypto_get_compressed_pubkey (key : List Nat) : Option (List Nat) :=
  match key with
  | 4 :: rest =>
    if rest.length = 64 then
      some ((if beNat (rest.drop 32) % 2 = 0 then 2 else 3) :: rest.take 32)
    else none
  | _ => none

/-- Modelled from the spec: `crypto_get_uncompressed_pubkey` (declaration at
src/crypto.h line 290, body missing).  Input: 33 bytes `(0x02|0x03) ‖ x`;
recovers y from the curve equation using the stored parity bit and fails
(InvalidParameter, `none`) if x does not correspond to a valid curve point. -/
def crypto_get_uncompressed_pubkey (p : Nat) (key : List Nat) : Option (List Nat) :=
  match key with
  | pb :: xb =>
    if (pb = 2 ∨ pb = 3) ∧ xb.length = 32 then
      let x := beNat xb
      if x < p then
        let y0 := powMod (curveRhs p x) ((p + 1) / 4) p
        let y := if y0 % 2 = pb % 2 then y0 else (p - y0) % p
        if y * y % p = curveRhs p x ∧ y % 2 = pb % 2 then
          some (4 :: (xb ++ beBytes 32 y))
        else none
      else none
    else none
  | [] => none

/-- A valid 65-byte uncompressed key: `0x04 ‖ x ‖ y` with canonical 32-byte
big-endian coordinates below `p` satisfying the curve equation. -/
def validUncompressed (p : Nat) (u : List Nat) : Prop :=
  ∃ xb yb, u = 4 :: (xb ++ yb) ∧ xb.length = 32 ∧ yb.length = 32 ∧
    (∀ b ∈ xb, b < 256) ∧ (∀ b ∈ yb, b < 256) ∧
    beNat xb < p ∧ beNat yb < p ∧
    beNat yb * beNat yb % p = curveRhs p (beNat xb)

theorem natCast_inj_of_lt {p a b : Nat} [NeZero p] (ha : a < p) (hb : b < p)
    (h : (a : ZMod p) = b) : a = b := by
  have hv := congrArg ZMod.val h
  rwa [ZMod.val_cast_of_lt ha, ZMod.val_cast_of_lt hb] at hv

/-- The provider's `c^((p+1)/4) mod p` square root lands on `±y` whenever
`c ≡ y²` and `p ≡ 3 (mod 4)` is prime. -/
theorem sqrt_via_pow (p : Nat) (hp : p.Prime) (hp4 : p % 4 = 3) (y c : Nat)
    (hy : y < p) (hc : y * y % p = c) :
    powMod c ((p + 1) / 4) p = y ∨ powMod c ((p + 1) / 4) p = (p - y) % p := by
  haveI : Fact p.Prime := ⟨hp⟩
  have hp2 : 2 < p := by
    rcases hp.eq_one_or_self_of_dvd 1 (one_dvd p) with h | h <;> omega
  set e : Nat := (p + 1) / 4 with he
  set y0 : Nat := powMod c e p with hy0
  have hy0lt : y0 < p := powMod_lt _ _ _ (by omega)
  -- cast everything into `ZMod p`
  have hcast : ((y0 : ZMod p)) = ((y : ZMod p)) ^ (2 * e) := by
    rw [hy0, powMod_eq, ZMod.natCast_mod, ← hc]
    push_cast [ZMod.natCast_mod]
    rw [← sq, ← pow_mul]
  have h2e : 2 * e = (p - 1) / 2 + 1 := by omega
  by_cases hy0' : (y : ZMod p) = 0
  · -- y ≡ 0, so y = 0, c ≡ 0 and the root is 0 as well
    left
    refine natCast_inj_of_lt hy0lt hy ?_
    rw [hcast, hy0', zero_pow (by omega)]
  · have heuler : (y : ZMod p) ^ ((p - 1) / 2) = 1 ∨ (y : ZMod p) ^ ((p - 1) / 2) = -1 := by
      apply mul_self_eq_one_iff.mp
      rw [← pow_add]
      have : (p - 1) / 2 + (p - 1) / 2 = p - 1 := by omega
      rw [this]
      exact ZMod.pow_card_sub_one_eq_one hy0'
    rcases heuler with h1 | h1
    · left
      refine natCast_inj_of_lt hy0lt hy ?_
      rw [hcast, h2e, pow_succ, h1, one_mul]
    · right
      refine natCast_inj_of_lt hy0lt (Nat.mod_lt _ (by omega)) ?_
      rw [hcast, h2e, pow_succ, h1, neg_one_mul, ZMod.natCast_mod,
        Nat.cast_sub (le_of_lt hy), ZMod.natCast_self, zero_sub]

/-- Successful decompression: when a point `(x, y)` with the parity announced
by the leading byte lies on the curve, decompression recovers exactly `y`. -/
theorem uncompressed_of_valid (p : Nat) (hp : p.Prime) (hp4 : p % 4 = 3)
    (pb : Nat) (xb : List Nat) (y : Nat)
    (hpb : pb = 2 ∨ pb = 3) (hxl : xb.length = 32) (hxp : beNat xb < p)
    (hyp : y < p) (hcurve : y * y % p = curveRhs p (beNat xb))
    (hpar : y % 2 = pb % 2) :
    crypto_get_uncompressed_pubkey p (pb :: xb) = some (4 :: (xb ++ beBytes 32 y)) := by
  have hp2 : 2 < p := by
    have := hp.two_le
    omega
  have hodd : p % 2 = 1 := by omega
  rw [crypto_get_uncompressed_pubkey]
  rw [if_pos ⟨hpb, hxl⟩, if_pos hxp]
  rcases sqrt_via_pow p hp hp4 y (curveRhs p (beNat xb)) hyp hcurve with h0 | h0
  · rw [h0]
    dsimp only
    rw [if_pos hpar, if_pos ⟨hcurve, hpar⟩]
  · rw [h0]
    by_cases hy0 : y = 0
    · have hz : (p - y) % p = y := by
        subst hy0
        simp
      rw [hz]
      dsimp only
      rw [if_pos hpar, if_pos ⟨hcurve, hpar⟩]
    · have hsub : (p - y) % p = p - y := Nat.mod_eq_of_lt (by omega)
      have hne : ¬((p - y) % p % 2 = pb % 2) := by
        rw [hsub]
        omega
      dsimp only
      rw [if_neg hne, hsub]
      have hback : p - (p - y) = y := by omega
      rw [hback, Nat.mod_eq_of_lt hyp, if_pos ⟨hcurve, hpar⟩]

/-- C3: `crypto_get_compressed_pubkey` and `crypto_get_uncompressed_pubkey` are
mutual inverses on valid curve points: compressing the result of a successful
decompression returns the original 33-byte key, and a valid 65-byte
uncompressed key survives the compression/decompression round trip.
Generic over the provider's prime field (`p ≡ 3 (mod 4)`, `p ≤ 2^256`). -/
theorem crypto_pubkey_compress_decompress_inverse
    (p : Nat) (k u : List Nat)
    (hp : p.Prime) (hp4 : p % 4 = 3) (hple : p ≤ 2 ^ 256) :
    (crypto_get_uncompressed_pubkey p k = some u →
        crypto_get_compressed_pubkey u = some k) ∧
    (validUncompressed p u →
        ∃ kc, crypto_get_compressed_pubkey u = some kc ∧
              crypto_get_uncompressed_pubkey p kc = some u) := by
  have h256 : (256 : Nat) ^ 32 = 2 ^ 256 := by norm_num
  constructor
  · intro h
    rcases k with _ | ⟨pb, xb⟩
    · simp [crypto_get_uncompressed_pubkey] at h
    · rw [crypto_get_uncompressed_pubkey] at h
      by_cases h1 : (pb = 2 ∨ pb = 3) ∧ xb.length = 32
      · rw [if_pos h1] at h
        by_cases h2 : beNat xb < p
        · rw [if_pos h2] at h
          dsimp only at h
          set y0 : Nat := powMod (curveRhs p (beNat xb)) ((p + 1) / 4) p with hy0
          set y : Nat := if y0 % 2 = pb % 2 then y0 else (p - y0) % p with hy
          by_cases h3 : y * y % p = curveRhs p (beNat xb) ∧ y % 2 = pb % 2
          · rw [if_pos h3] at h
            have hu := Option.some.inj h
            subst hu
            have hylt : y < p := by
              rw [hy]
              split
              · exact powMod_lt _ _ _ hp.pos
              · exact Nat.mod_lt _ hp.pos
            have hyval : beNat (beBytes 32 y) = y :=
              beNat_beBytes 32 y (by rw [h256]; omega)
            rw [crypto_get_compressed_pubkey]
            rw [if_pos (by simp [h1.2, beBytes_length])]
            have htake : (xb ++ beBytes 32 y).take 32 = xb := by
              rw [← h1.2]
              exact List.take_left _ _
            have hdrop : (xb ++ beBytes 32 y).drop 32 = beBytes 32 y := by
              rw [← h1.2]
              exact List.drop_left _ _
            rw [htake, hdrop, hyval]
            rcases h1.1 with hpb | hpb <;> subst hpb
            · rw [if_pos (by omega)]
            · rw [if_neg (by omega)]
          · rw [if_neg h3] at h
            exact absurd h (by simp)
        · rw [if_neg h2] at h
          exact absurd h (by simp)
      · rw [if_neg h1] at h
        exact absurd h (by simp)
  · rintro ⟨xb, yb, rfl, hxl, hyl, hxB, hyB, hxp, hyplt, hcurve⟩
    have hrest : (xb ++ yb).length = 64 := by simp [hxl, hyl]
    have htake : (xb ++ yb).take 32 = xb := by
      rw [← hxl]
      exact List.take_left _ _
    have hdrop : (xb ++ yb).drop 32 = yb := by
      rw [← hxl]
      exact List.drop_left _ _
    refine ⟨(if beNat yb % 2 = 0 then 2 else 3) :: xb, ?_, ?_⟩
    · rw [crypto_get_compressed_pubkey, if_pos hrest, htake, hdrop]
    · have hpb23 : (if beNat yb % 2 = 0 then 2 else 3) = 2 ∨
          (if beNat yb % 2 = 0 then 2 else 3) = 3 := by
        split
        · exact Or.inl rfl
        · exact Or.inr rfl
      have hpar : beNat yb % 2 = (if beNat yb % 2 = 0 then 2 else 3) % 2 := by
        split <;> omega
      rw [uncompressed_of_valid p hp hp4 _ xb (beNat yb) hpb23 hxl hxp hyplt hcurve hpar]
      rw [show beBytes 32 (beNat yb) = yb from by
        rw [← hyl]
        exact beBytes_beNat yb hyB]

/-!
## Base58check encoding (src/crypto.h lines 303, 328–346)

`crypto_get_checksum` and `base58_encode_address` are declared with precise
doc comments but their bodies are missing; they are modelled from the spec.
SHA-256 belongs to the external provider and is a parameter.
-/

/-- The standard base58 alphabet. -/
def base58Alphabet : List Char :=
  "123456789ABCDEFGHJKLMNPQRSTUVWXYZabcdefghijkmnopqrstuvwxyz".toList

/-- The character for base58 digit `d`. -/
def b58char (d : Nat) : Char := base58Alphabet.getD d ' '

def natToB58Aux : Nat → Nat → List Nat
  | 0, _ => []
  | fuel + 1, n => if n = 0 then [] else natToB58Aux fuel (n / 58) ++ [n % 58]

/-- Big-endian base58 digits of `n` (empty for 0, no leading zero digit);
`n` itself is enough fuel since the value strictly shrinks each step. -/
def natToB58 (n : Nat) : List Nat := natToB58Aux n n

theorem natToB58Aux_zero (fuel : Nat) : natToB58Aux fuel 0 = [] := by
  cases fuel with
  | zero => rfl
  | succ fuel => rw [natToB58Aux, if_pos rfl]

theorem natToB58Aux_congr (f1 : Nat) : ∀ f2 n, n ≤ f1 → n ≤ f2 →
    natToB58Aux f1 n = natToB58Aux f2 n := by
  induction f1 with
  | zero =>
    intro f2 n h1 _
    have : n = 0 := by omega
    rw [this, natToB58Aux_zero, natToB58Aux_zero]
  | succ f1 ih =>
    intro f2 n h1 h2
    by_cases hn : n = 0
    · rw [hn, natToB58Aux_zero, natToB58Aux_zero]
    · obtain ⟨f2p, rfl⟩ : ∃ f2p, f2 = f2p + 1 := ⟨f2 - 1, by omega⟩
      rw [natToB58Aux, natToB58Aux, if_neg hn, if_neg hn]
      have hdiv : n / 58 < n := Nat.div_lt_self (by omega) (by norm_num)
      rw [ih f2p (n / 58) (by omega) (by omega)]

/-- The defining recurrence of `natToB58`. -/
theorem natToB58_eq (n : Nat) :
    natToB58 n = if n = 0 then [] else natToB58 (n / 58) ++ [n % 58] := by
  by_cases hn : n = 0
  · rw [if_pos hn, hn, natToB58, natToB58Aux_zero]
  · rw [if_neg hn, natToB58, natToB58]
    obtain ⟨f, rfl⟩ : ∃ f, n = f + 1 := ⟨n - 1, by omega⟩
    rw [natToB58Aux, if_neg hn]
    have hdiv : (f + 1) / 58 < f + 1 := Nat.div_lt_self (by omega) (by norm_num)
    rw [natToB58Aux_congr f ((f + 1) / 58) ((f + 1) / 58) (by omega) (le_refl _)]

/-- Number of leading zero bytes of a byte string. -/
def countLeadingZeros (bs : List Nat) : Nat := (bs.takeWhile (· == 0)).length

/-- Modelled from the spec: the base58 encoder used by the missing
`base58_encode` helper — one leading '1' per leading zero byte, then the
base58 digits of the big-endian value. -/
def base58_encode (data : List Nat) : List Char :=
  List.replicate (countLeadingZeros data) '1' ++ (natToB58 (beNat data)).map b58char

/-- Modelled from the spec: `crypto_get_checksum` (declaration at
src/crypto.h line 303, body missing) — the first 4 bytes of the double
SHA-256 of the input. -/
def crypto_get_checksum (sha256 : List Nat → List Nat) (data : List Nat) : List Nat :=
  (sha256 (sha256 data)).take 4

/-- Modelled from the spec: the version bytes prepended by
`base58_encode_address` — 1 byte if `version < 256`, 2 big-endian bytes if
`version < 65536`, else 4 big-endian bytes (doc comment at src/crypto.h
lines 328–332). -/
def versionBytes (version : Nat) : List Nat :=
  if version < 256 then [version]
  else if version < 65536 then beBytes 2 version
  else beBytes 4 version

/-- Modelled from the spec: `base58_encode_address` (declaration at
src/crypto.h line 346, body missing).  Returns the C `int` result together
with the bytes written to `out` (empty on failure). -/
def base58_encode_address (sha256 : List Nat → List Nat) (hash : List Nat)
    (version : Nat) (out_len : Nat) : Int × List Char :=
  let payload := versionBytes version ++ hash
  let enc := base58_encode (payload ++ crypto_get_checksum sha256 payload)
  if enc.length ≤ out_len then ((enc.length : Int), enc) else (-1, [])

theorem natToB58_head_ne_zero (n : Nat) (hn : n ≠ 0) :
    ∃ d t, natToB58 n = d :: t ∧ d ≠ 0 ∧ d < 58 := by
  induction n using Nat.strong_induction_on with
  | _ n ih =>
    rw [natToB58_eq, if_neg hn]
    by_cases h58 : n < 58
    · have : n / 58 = 0 := Nat.div_eq_of_lt h58
      rw [this, natToB58, natToB58Aux_zero]
      exact ⟨n % 58, [], by simp, by omega, by omega⟩
    · have hq : n / 58 ≠ 0 := by
        have h1 : 1 ≤ n / 58 := (Nat.one_le_div_iff (by norm_num)).mpr (by omega)
        omega
      obtain ⟨d, t, ht, hd0, hd58⟩ :=
        ih (n / 58) (Nat.div_lt_self (Nat.pos_of_ne_zero hn) (by norm_num)) hq
      exact ⟨d, t ++ [n % 58], by rw [ht]; rfl, hd0, hd58⟩

theorem beNat_foldl_ge (l : List Nat) (a : Nat) :
    a ≤ l.foldl (fun x b => x * 256 + b) a := by
  induction l generalizing a with
  | nil => exact le_refl a
  | cons b t ih =>
    refine le_trans ?_ (ih (a * 256 + b))
    calc a ≤ a * 256 := Nat.le_mul_of_pos_right a (by omega)
    _ ≤ a * 256 + b := Nat.le_add_right _ _

theorem beNat_cons_ne_zero (d : Nat) (l : List Nat) (hd : d ≠ 0) :
    beNat (d :: l) ≠ 0 := by
  have : d ≤ beNat (d :: l) := by
    have := beNat_foldl_ge l d
    simpa [beNat] using this
  omega

theorem b58char_ne_one : ∀ d, d < 58 → d ≠ 0 → b58char d ≠ '1' := by decide

/-- C6: each leading zero byte of the encoder's input produces exactly one
leading '1' character of its output, and no other '1' can lead. -/
theorem base58_encode_leading_ones (data : List Nat) :
    ((base58_encode data).takeWhile (· == '1')).length = countLeadingZeros data := by
  induction data with
  | nil => simp [base58_encode, countLeadingZeros, beNat, natToB58, natToB58Aux]
  | cons b t ih =>
    by_cases hb : b = 0
    · subst hb
      have hcz : countLeadingZeros (0 :: t) = countLeadingZeros t + 1 := by
        simp [countLeadingZeros]
      have hbe : beNat (0 :: t) = beNat t := by simp [beNat]
      rw [base58_encode, hcz, hbe, List.replicate_succ, List.cons_append,
        List.takeWhile_cons_of_pos (by decide)]
      simp only [List.length_cons, Nat.add_left_inj]
      exact ih
    · have hcz : countLeadingZeros (b :: t) = 0 := by
        simp [countLeadingZeros, hb]
      rw [base58_encode, hcz]
      simp only [List.replicate_zero, List.nil_append]
      obtain ⟨d, t0, ht0, hd0, hd58⟩ :=
        natToB58_head_ne_zero _ (beNat_cons_ne_zero b t hb)
      rw [ht0, List.map_cons, List.takeWhile_cons_of_neg]
      · rfl
      · simpa using b58char_ne_one d hd58 hd0

/-- The behavior of `base58_encode_address` as worded in the claim, given
already-encoded version bytes: append the first 4 bytes of the double
SHA-256 of version-bytes ‖ hash as checksum, base58-encode, fail with -1
exactly when the result does not fit. -/
def b58addrSpec (sha256 : List Nat → List Nat) (vb hash : List Nat)
    (out_len : Nat) : Int × List Char :=
  let enc := base58_encode (vb ++ hash ++ (sha256 (sha256 (vb ++ hash))).take 4)
  if enc.length ≤ out_len then ((enc.length : Int), enc) else (-1, [])

/-- C5: `base58_encode_address` prepends the version in 1/2/4 big-endian
bytes by magnitude, appends the 4-byte double-SHA256 checksum,
base58-encodes, and returns -1 exactly on overflow. -/
theorem base58_encode_address_spec (sha256 : List Nat → List Nat)
    (hash : List Nat) (version out_len : Nat) (_h20 : hash.length = 20) :
    (version < 256 →
      base58_encode_address sha256 hash version out_len =
        b58addrSpec sha256 (beBytes 1 version) hash out_len) ∧
    (256 ≤ version → version < 65536 →
      base58_encode_address sha256 hash version out_len =
        b58addrSpec sha256 (beBytes 2 version) hash out_len) ∧
    (65536 ≤ version →
      base58_encode_address sha256 hash version out_len =
        b58addrSpec sha256 (beBytes 4 version) hash out_len) ∧
    ((base58_encode_address sha256 hash version out_len).1 = -1 ↔
      out_len < (base58_encode (versionBytes version ++ hash ++
        crypto_get_checksum sha256 (versionBytes version ++ hash))).length) := by
  have hassoc : ∀ vb : List Nat,
      (vb ++ hash) ++ crypto_get_checksum sha256 (vb ++ hash) =
        vb ++ hash ++ (sha256 (sha256 (vb ++ hash))).take 4 := by
    intro vb
    rw [crypto_get_checksum]
  refine ⟨?_, ?_, ?_, ?_⟩
  · intro h1
    have hvb : versionBytes version = beBytes 1 version := by
      rw [versionBytes, if_pos h1, beBytes, beBytes]
      simp [Nat.mod_eq_of_lt h1]
    rw [base58_encode_address, b58addrSpec, hvb, hassoc]
  · intro h1 h2
    have hvb : versionBytes version = beBytes 2 version := by
      rw [versionBytes, if_neg (by omega), if_pos h2]
    rw [base58_encode_address, b58addrSpec, hvb, hassoc]
  · intro h1
    have hvb : versionBytes version = beBytes 4 version := by
      rw [versionBytes, if_neg (by omega), if_neg (by omega)]
    rw [base58_encode_address, b58addrSpec, hvb, hassoc]
  · rw [base58_encode_address]
    split
    · next hfit =>
      constructor
      · intro habs
        exfalso
        omega
      · intro habs
        omega
    · next hfit =>
      constructor
      · intro _
        omega
      · intro _
        rfl

/-!
## BIP32 derivation engine (src/crypto.h lines 66–71, 110–114, 320–325)

Only declarations are present in the repository; the algorithms are modelled
from the spec (§4.1, §4.2).  The external primitives (HMAC-SHA512, hash160,
point serialization) form a `Provider` parameter.  The secp256k1 subgroup
generated by G is cyclic of prime order `secp_n`, so curve points are
represented by their discrete logarithm: `k·G` is `k % secp_n`, point
addition is addition mod `secp_n`, and the point at infinity is 0.
-/

/-- The order of the secp256k1 base point. -/
def secp_n : Nat :=
  0xFFFFFFFFFFFFFFFFFFFFFFFFFFFFFFFEBAAEDCE6AF48A03BBFD25E8CD0364141

/-- The error kinds reported through negative C return values (spec §7). -/
inductive CxErr
  | invalidParameter
  | derivationFailure
deriving DecidableEq

/-- The C return value of an operation: 0 on success, negative on failure. -/
def retCode {α : Type} (r : Except CxErr α) : Int :=
  match r with
  | .ok _ => 0
  | .error .invalidParameter => -1
  | .error .derivationFailure => -2

/-- The external primitive-crypto provider (spec §2, §6): HMAC-SHA512,
hash160, and the compressed serialization of a curve point (given by its
discrete logarithm). -/
structure Provider where
  hmac512 : List Nat → List Nat → List Nat
  hash160 : List Nat → List Nat
  serP : Nat → List Nat

/-- An extended public key with its curve point kept as a discrete logarithm
(the `compressed_pubkey` field of the byte-level struct is `serP point`). -/
structure xpub_t where
  version : List Nat
  depth : Nat
  parent_fingerprint : List Nat
  child_number : List Nat
  chain_code : List Nat
  point : Nat
deriving DecidableEq

/-- The byte-level struct corresponding to an `xpub_t`. -/
def xpub_t.toSerialized (prov : Provider) (x : xpub_t) : serialized_extended_pubkey_t :=
  { version := x.version
    depth := x.depth
    parent_fingerprint := x.parent_fingerprint
    child_number := x.child_number
    chain_code := x.chain_code
    compressed_pubkey := prov.serP x.point }

/-- The root (depth-0) extended public key of a master key `k0` with chain
code `cc0`: all-zero parent fingerprint and child number (spec §3). -/
def rootXpub (k0 : Nat) (cc0 version : List Nat) : xpub_t :=
  { version := version
    depth := 0
    parent_fingerprint := List.replicate 4 0
    child_number := List.replicate 4 0
    chain_code := cc0
    point := k0 }

/-- Modelled from the spec: one private-derivation step of
`crypto_derive_private_key` (spec §4.1).  Hardened index: HMAC data is
`0x00 ‖ key ‖ be32(i)`; normal index: `compressed-pubkey ‖ be32(i)`.
New key is `(IL + k) mod n`, failing if `IL ≥ n` or the new key is 0. -/
def derivePrivStep (prov : Provider) (k : Nat) (cc : List Nat) (i : Nat) :
    Except CxErr (Nat × List Nat) :=
  let data := if 2 ^ 31 ≤ i then 0 :: (beBytes 32 k ++ beBytes 4 i)
              else prov.serP k ++ beBytes 4 i
  let I := prov.hmac512 cc data
  let IL := beNat (I.take 32)
  if secp_n ≤ IL then .error .derivationFailure
  else if (IL + k) % secp_n = 0 then .error .derivationFailure
  else .ok ((IL + k) % secp_n, I.drop 32)

/-- Modelled from the spec: `crypto_derive_private_key` (declaration at
src/crypto.h lines 66–71, body missing) iterates `derivePrivStep` along the
path; the empty path returns the master key and chain code unchanged. -/
def crypto_derive_private_key (prov : Provider) :
    Nat → List Nat → List Nat → Except CxErr (Nat × List Nat)
  | k, cc, [] => .ok (k, cc)
  | k, cc, i :: rest =>
    match derivePrivStep prov k cc i with
    | .error e => .error e
    | .ok (k2, cc2) => crypto_derive_private_key prov k2 cc2 rest

/-- Modelled from the spec: `bip32_CKDpub` (declaration at src/crypto.h
lines 110–114, body missing).  A hardened index fails with InvalidParameter;
a depth that would leave the 1-byte range fails rather than wrapping;
IL out of scalar range or a point-at-infinity child fails with
DerivationFailure (spec §4.1, §3). -/
def bip32_CKDpub (prov : Provider) (parent : xpub_t) (index : Nat) :
    Except CxErr xpub_t :=
  if 2 ^ 31 ≤ index then .error .invalidParameter
  else if 255 ≤ parent.depth then .error .invalidParameter
  else
    let I := prov.hmac512 parent.chain_code (prov.serP parent.point ++ beBytes 4 index)
    let IL := beNat (I.take 32)
    if secp_n ≤ IL then .error .derivationFailure
    else if (IL + parent.point) % secp_n = 0 then .error .derivationFailure
    else .ok { version := parent.version
               depth := parent.depth + 1
               parent_fingerprint := (prov.hash160 (prov.serP parent.point)).take 4
               child_number := beBytes 4 index
               chain_code := I.drop 32
               point := (IL + parent.point) % secp_n }

/-- Modelled from the spec: the 78-byte extended-pubkey struct built by
`get_serialized_extended_pubkey_at_path` (spec §4.2 and the §3 invariants):
depth = number of steps, child number = last index (root: 0), parent
fingerprint = first 4 bytes of hash160 of the parent's compressed pubkey
(root: the all-zero sentinel). -/
def xpubAtPath (prov : Provider) (k0 : Nat) (cc0 version : List Nat)
    (path : List Nat) : Except CxErr xpub_t :=
  match path with
  | [] => .ok (rootXpub k0 cc0 version)
  | _ :: _ =>
    match crypto_derive_private_key prov k0 cc0 path.dropLast with
    | .error e => .error e
    | .ok (kp, _) =>
      match crypto_derive_private_key prov k0 cc0 path with
      | .error e => .error e
      | .ok (k, cc) =>
        .ok { version := version
              depth := path.length
              parent_fingerprint := (prov.hash160 (prov.serP kp)).take 4
              child_number := beBytes 4 (path.getLast?.getD 0)
              chain_code := cc
              point := k }

/-- The CKDpub chain simulates private-key derivation step by step on
normal indices: same HMAC inputs, same failure conditions, child point
`(IL·G) + K = (IL + k)·G`. -/
theorem ckd_chain (prov : Provider) (path : List Nat) :
    ∀ (k : Nat) (cc : List Nat) (X : xpub_t) (kf : Nat) (ccf : List Nat),
    X.point = k → X.chain_code = cc →
    X.depth + path.length ≤ 255 →
    (∀ i ∈ path, i < 2 ^ 31) →
    crypto_derive_private_key prov k cc path = .ok (kf, ccf) →
    ∃ Y : xpub_t, List.foldlM (bip32_CKDpub prov) X path = .ok Y ∧
      Y.point = kf ∧ Y.chain_code = ccf ∧
      Y.depth = X.depth + path.length ∧ Y.version = X.version ∧
      (path = [] → Y = X) ∧
      (path ≠ [] → ∃ kp ccp,
        crypto_derive_private_key prov k cc path.dropLast = .ok (kp, ccp) ∧
        Y.parent_fingerprint = (prov.hash160 (prov.serP kp)).take 4 ∧
        Y.child_number = beBytes 4 (path.getLast?.getD 0)) := by
  induction path with
  | nil =>
    intro k cc X kf ccf hpt hcc hd hnorm hpriv
    rw [crypto_derive_private_key] at hpriv
    simp only [Except.ok.injEq, Prod.mk.injEq] at hpriv
    obtain ⟨rfl, rfl⟩ := hpriv
    refine ⟨X, by rfl, hpt, hcc, by simp, rfl, fun _ => rfl, ?_⟩
    intro hne
    exact absurd rfl hne
  | cons i rest ih =>
    intro k cc X kf ccf hpt hcc hd hnorm hpriv
    subst hpt
    subst hcc
    have hi : i < 2 ^ 31 := hnorm i (by simp)
    have hdep : X.depth ≤ 254 := by
      simp only [List.length_cons] at hd
      omega
    rw [crypto_derive_private_key] at hpriv
    cases hstep : derivePrivStep prov X.point X.chain_code i with
    | error e =>
      rw [hstep] at hpriv
      exact absurd hpriv (by simp)
    | ok p =>
      obtain ⟨k1, cc1⟩ := p
      rw [hstep] at hpriv
      rw [derivePrivStep] at hstep
      rw [if_neg (by omega : ¬ 2 ^ 31 ≤ i)] at hstep
      set I := prov.hmac512 X.chain_code (prov.serP X.point ++ beBytes 4 i) with hI
      set IL := beNat (I.take 32) with hIL
      by_cases hILn : secp_n ≤ IL
      · rw [if_pos hILn] at hstep
        exact absurd hstep (by simp)
      · rw [if_neg hILn] at hstep
        by_cases hz : (IL + X.point) % secp_n = 0
        · rw [if_pos hz] at hstep
          exact absurd hstep (by simp)
        · rw [if_neg hz] at hstep
          simp only [Except.ok.injEq, Prod.mk.injEq] at hstep
          obtain ⟨hk1, hcc1⟩ := hstep
          set X1 : xpub_t :=
            { version := X.version
              depth := X.depth + 1
              parent_fingerprint := (prov.hash160 (prov.serP X.point)).take 4
              child_number := beBytes 4 i
              chain_code := I.drop 32
              point := (IL + X.point) % secp_n } with hX1
          have hckd : bip32_CKDpub prov X i = .ok X1 := by
            rw [bip32_CKDpub, if_neg (by omega : ¬ 2 ^ 31 ≤ i),
              if_neg (by omega : ¬ 255 ≤ X.depth)]
            dsimp only
            rw [← hI, ← hIL, if_neg hILn, if_neg hz]
          have hd1 : X1.depth + rest.length ≤ 255 := by
            simp only [hX1, List.length_cons] at hd ⊢
            omega
          obtain ⟨Y, hfold, hYpt, hYcc, hYd, hYv, hYnil, hYne⟩ :=
            ih k1 cc1 X1 kf ccf (by rw [hX1, hk1]) (by rw [hX1, hcc1])
              hd1 (fun j hj => hnorm j (by simp [hj])) hpriv
          refine ⟨Y, ?_, hYpt, hYcc, ?_, ?_, ?_, ?_⟩
          · rw [List.foldlM_cons, hckd]
            exact hfold
          · rw [hYd]
            simp [hX1]
            omega
          · rw [hYv, hX1]
          · intro habs
            exact absurd habs (by simp)
          · intro _
            rcases rest with _ | ⟨r1, rest'⟩
            · have hYX1 : Y = X1 := hYnil rfl
              refine ⟨X.point, X.chain_code, ?_, ?_, ?_⟩
              · rw [List.dropLast_single, crypto_derive_private_key]
              · rw [hYX1, hX1]
              · rw [hYX1, hX1]
                rfl
            · obtain ⟨kp, ccp, hkp, hfp, hcn⟩ := hYne (by simp)
              refine ⟨kp, ccp, ?_, hfp, ?_⟩
              · rw [show (i :: r1 :: rest').dropLast = i :: (r1 :: rest').dropLast from rfl]
                rw [crypto_derive_private_key]
                rw [show derivePrivStep prov X.point X.chain_code i = .ok (k1, cc1) from ?_]
                · exact hkp
                · rw [derivePrivStep]
                  rw [if_neg (by omega : ¬ 2 ^ 31 ≤ i), ← hI, ← hIL,
                    if_neg hILn, if_neg hz, hk1, hcc1]
              · rw [hcn]
                rfl

/-- C1: for a path of normal indices, the extended pubkey built from the
full private-key derivation equals the one obtained by iterating
`bip32_CKDpub` from the root's extended public key — including its
byte serialization. -/
theorem private_path_matches_ckdpub_chain
    (prov : Provider) (k0 : Nat) (cc0 version : List Nat) (path : List Nat)
    (hnorm : ∀ i ∈ path, i < 2 ^ 31) (hlen : path.length ≤ 255)
    (x : xpub_t) (hpriv : xpubAtPath prov k0 cc0 version path = .ok x) :
    List.foldlM (bip32_CKDpub prov) (rootXpub k0 cc0 version) path = .ok x ∧
    (List.foldlM (bip32_CKDpub prov) (rootXpub k0 cc0 version) path).map
        (fun y => (y.toSerialized prov).bytes) =
      .ok ((x.toSerialized prov).bytes) := by
  suffices h : List.foldlM (bip32_CKDpub prov) (rootXpub k0 cc0 version) path = .ok x by
    refine ⟨h, ?_⟩
    rw [h]
    rfl
  cases path with
  | nil =>
    rw [xpubAtPath] at hpriv
    have hx := Except.ok.inj hpriv
    rw [← hx]
    rfl
  | cons i rest =>
    rw [xpubAtPath] at hpriv
    cases hp1 : crypto_derive_private_key prov k0 cc0 ((i :: rest).dropLast) with
    | error e =>
      rw [hp1] at hpriv
      exact absurd hpriv (by simp)
    | ok p =>
      obtain ⟨kp, ccp⟩ := p
      rw [hp1] at hpriv
      cases hp2 : crypto_derive_private_key prov k0 cc0 (i :: rest) with
      | error e =>
        rw [hp2] at hpriv
        exact absurd hpriv (by simp)
      | ok q =>
        obtain ⟨kf, ccf⟩ := q
        rw [hp2] at hpriv
        have hx := Except.ok.inj hpriv
        obtain ⟨Y, hfold, hYpt, hYcc, hYd, hYv, hYnil, hYne⟩ :=
          ckd_chain prov (i :: rest) k0 cc0 (rootXpub k0 cc0 version) kf ccf rfl rfl
            (by simp only [rootXpub, List.length_cons] at *; omega) hnorm hp2
        obtain ⟨kp', ccp', hkp', hfp, hcn⟩ := hYne (by simp)
        rw [hp1] at hkp'
        simp only [Except.ok.injEq, Prod.mk.injEq] at hkp'
        obtain ⟨hkpe, hccpe⟩ := hkp'
        rw [hfold, ← hx]
        congr 1
        obtain ⟨Yv, Yd, Yfp, Ycn, Ycc, Ypt⟩ := Y
        simp only at hYpt hYcc hYd hYv hfp hcn
        rw [xpub_t.mk.injEq]
        refine ⟨?_, ?_, ?_, ?_, ?_, ?_⟩
        · rw [hYv]
          rfl
        · rw [hYd]
          simp [rootXpub]
        · rw [hfp, hkpe]
        · rw [hcn]
        · exact hYcc
        · exact hYpt

/-!
## Zeroization of sensitive material (C9) and the serialized-pubkey API (C7)
-/

/-- The sensitive scratch memory of a derivation call: the 64-byte HMAC
output buffer and the 32-byte intermediate key and chain-code buffers
(spec §3 "Private Key Material", §5). -/
structure DeriveScratch where
  buf_I : List Nat
  buf_key : List Nat
  buf_cc : List Nat
deriving DecidableEq

/-- All-zero scratch: what `explicit_bzero` leaves behind. -/
def zeroScratch : DeriveScratch :=
  ⟨List.replicate 64 0, List.replicate 32 0, List.replicate 32 0⟩

/-- Modelled from the spec: `crypto_derive_private_key` with its sensitive
locals made explicit.  Each loop iteration fills the scratch with the HMAC
output and the new key and chain code; every exit path — success or early
error — overwrites the scratch with zeros before returning (spec §5). -/
def crypto_derive_private_key_mem (prov : Provider) :
    Nat → List Nat → List Nat → DeriveScratch →
    Except CxErr (Nat × List Nat) × DeriveScratch
  | k, cc, [], _ => (.ok (k, cc), zeroScratch)
  | k, cc, i :: rest, _ =>
    let data := if 2 ^ 31 ≤ i then 0 :: (beBytes 32 k ++ beBytes 4 i)
                else prov.serP k ++ beBytes 4 i
    let I := prov.hmac512 cc data
    let IL := beNat (I.take 32)
    if secp_n ≤ IL then (.error .derivationFailure, zeroScratch)
    else if (IL + k) % secp_n = 0 then (.error .derivationFailure, zeroScratch)
    else
      crypto_derive_private_key_mem prov ((IL + k) % secp_n) (I.drop 32) rest
        ⟨I, beBytes 32 ((IL + k) % secp_n), I.drop 32⟩

/-- C9: on every exit path of the derivation — success, early error, any
path and any incoming scratch — the sensitive scratch is returned
overwritten with zeros, and the visible result is that of
`crypto_derive_private_key`. -/
theorem derive_private_key_zeroizes (prov : Provider) (path : List Nat) :
    ∀ (k : Nat) (cc : List Nat) (s : DeriveScratch),
      (crypto_derive_private_key_mem prov k cc path s).2 = zeroScratch ∧
      (crypto_derive_private_key_mem prov k cc path s).1 =
        crypto_derive_private_key prov k cc path := by
  induction path with
  | nil =>
    intro k cc s
    exact ⟨rfl, rfl⟩
  | cons i rest ih =>
    intro k cc s
    rw [crypto_derive_private_key_mem, crypto_derive_private_key, derivePrivStep]
    set data := if 2 ^ 31 ≤ i then 0 :: (beBytes 32 k ++ beBytes 4 i)
                else prov.serP k ++ beBytes 4 i with hdata
    set I := prov.hmac512 cc data with hI
    set IL := beNat (I.take 32) with hIL
    by_cases h1 : secp_n ≤ IL
    · rw [if_pos h1, if_pos h1]
      exact ⟨rfl, rfl⟩
    · rw [if_neg h1, if_neg h1]
      by_cases h2 : (IL + k) % secp_n = 0
      · rw [if_pos h2, if_pos h2]
        exact ⟨rfl, rfl⟩
      · rw [if_neg h2, if_neg h2]
        exact ih ((IL + k) % secp_n) (I.drop 32) _

/-- Modelled from the spec: `MAX_SERIALIZED_PUBKEY_LENGTH` of the missing
`constants.h` — the maximum length of the base58check encoding of the
82-byte checked buffer. -/
def MAX_SERIALIZED_PUBKEY_LENGTH : Nat := 112

/-- Modelled from the spec: `get_serialized_extended_pubkey_at_path`
(declaration at src/crypto.h lines 320–325, body missing).  The model
mirrors the C signature: there is no buffer-length parameter (the
declaration contracts `out` to hold `MAX_SERIALIZED_PUBKEY_LENGTH + 1`
bytes) and the return type is the unsigned `size_t`; the result is the
pair (returned length, characters written, null terminator excluded). -/
def get_serialized_extended_pubkey_at_path (prov : Provider)
    (sha256 : List Nat → List Nat) (k0 : Nat) (cc0 : List Nat)
    (bip32_path : List Nat) (bip32_pubkey_version : Nat) :
    Except CxErr (Nat × List Char) :=
  match xpubAtPath prov k0 cc0 (beBytes 4 bip32_pubkey_version) bip32_path with
  | .error e => .error e
  | .ok x =>
    let ser := (x.toSerialized prov).bytes
    let enc := base58_encode (ser ++ crypto_get_checksum sha256 ser)
    .ok (enc.length, enc)

/-- C7 (amended): on success, the returned value is exactly the length of
the written base58check string, the null terminator excluded. -/
theorem serialized_pubkey_returns_length (prov : Provider)
    (sha256 : List Nat → List Nat) (k0 : Nat) (cc0 path : List Nat)
    (version : Nat) (r : Nat × List Char)
    (h : get_serialized_extended_pubkey_at_path prov sha256 k0 cc0 path version = .ok r) :
    r.1 = r.2.length := by
  rw [get_serialized_extended_pubkey_at_path] at h
  cases hx : xpubAtPath prov k0 cc0 (beBytes 4 version) path with
  | error e =>
    rw [hx] at h
    exact absurd h (by simp)
  | ok x =>
    rw [hx] at h
    have hr := Except.ok.inj h
    rw [← hr]

/-- C7 counterexample: the claim's failure clause is impossible — the C
declaration returns the unsigned `size_t` and takes no buffer-length
parameter, so no input makes `get_serialized_extended_pubkey_at_path`
report a negative EncodingOverflow sentinel. -/
theorem serialized_pubkey_no_negative_sentinel :
    ¬ ∃ (prov : Provider) (sha256 : List Nat → List Nat) (k0 : Nat)
        (cc0 path : List Nat) (version : Nat) (r : Nat × List Char),
      get_serialized_extended_pubkey_at_path prov sha256 k0 cc0 path version =
        .ok r ∧ (r.1 : Int) < 0 := by
  rintro ⟨_, _, _, _, _, _, r, _, hneg⟩
  omega

/-- C2: for every parent and every hardened index (≥ 0x80000000),
`bip32_CKDpub` fails with InvalidParameter — a negative C return — and
produces no child key. -/
theorem ckdpub_hardened_fails (prov : Provider) (parent : xpub_t) (index : Nat)
    (h : 2 ^ 31 ≤ index) :
    bip32_CKDpub prov parent index = .error .invalidParameter ∧
    retCode (bip32_CKDpub prov parent index) < 0 ∧
    ∀ child, bip32_CKDpub prov parent index ≠ .ok child := by
  have he : bip32_CKDpub prov parent index = .error .invalidParameter := by
    rw [bip32_CKDpub, if_pos h]
  refine ⟨he, ?_, ?_⟩
  · rw [he]
    decide
  · intro child hc
    rw [he] at hc
    exact absurd hc (by simp)

/-- C8: every successful `bip32_CKDpub` child has depth = parent depth + 1,
and a parent at depth 255 makes the call fail instead of wrapping the
depth to 0. -/
theorem ckdpub_depth_succ (prov : Provider) (parent : xpub_t) (index : Nat) :
    (∀ child, bip32_CKDpub prov parent index = .ok child →
        child.depth = parent.depth + 1) ∧
    (parent.depth = 255 →
        bip32_CKDpub prov parent index = .error .invalidParameter ∧
        retCode (bip32_CKDpub prov parent index) < 0) := by
  constructor
  · intro child h
    rw [bip32_CKDpub] at h
    by_cases h1 : 2 ^ 31 ≤ index
    · rw [if_pos h1] at h
      exact absurd h (by simp)
    · rw [if_neg h1] at h
      by_cases h2 : 255 ≤ parent.depth
      · rw [if_pos h2] at h
        exact absurd h (by simp)
      · rw [if_neg h2] at h
        dsimp only at h
        set I := prov.hmac512 parent.chain_code (prov.serP parent.point ++ beBytes 4 index)
          with hI
        set IL := beNat (I.take 32) with hIL
        by_cases h3 : secp_n ≤ IL
        · rw [if_pos h3] at h
          exact absurd h (by simp)
        · rw [if_neg h3] at h
          by_cases h4 : (IL + parent.point) % secp_n = 0
          · rw [if_pos h4] at h
            exact absurd h (by simp)
          · rw [if_neg h4] at h
            have hc := Except.ok.inj h
            rw [← hc]
  · intro h255
    have he : bip32_CKDpub prov parent index = .error .invalidParameter := by
      rw [bip32_CKDpub]
      by_cases h1 : 2 ^ 31 ≤ index
      · rw [if_pos h1]
      · rw [if_neg h1, if_pos (by omega)]
    refine ⟨he, ?_⟩
    rw [he]
    decide

/-- C4: the serialized extended public key occupies exactly 78 bytes in the
order version(4) ‖ depth(1) ‖ parent fingerprint(4) ‖ child number(4) ‖
chain code(32) ‖ compressed pubkey(33), and the checked form appends
exactly the 4-byte checksum for a total of 82 bytes. -/
theorem serialized_extended_pubkey_layout (x : serialized_extended_pubkey_check_t)
    (h : x.wf) :
    x.serialize_extended_pubkey.bytes.length = 78 ∧
    x.bytes.length = 82 ∧
    x.serialize_extended_pubkey.bytes.take 4 = x.serialize_extended_pubkey.version ∧
    (x.serialize_extended_pubkey.bytes.drop 4).take 1 =
      [x.serialize_extended_pubkey.depth] ∧
    (x.serialize_extended_pubkey.bytes.drop 5).take 4 =
      x.serialize_extended_pubkey.parent_fingerprint ∧
    (x.serialize_extended_pubkey.bytes.drop 9).take 4 =
      x.serialize_extended_pubkey.child_number ∧
    (x.serialize_extended_pubkey.bytes.drop 13).take 32 =
      x.serialize_extended_pubkey.chain_code ∧
    x.serialize_extended_pubkey.bytes.drop 45 =
      x.serialize_extended_pubkey.compressed_pubkey ∧
    x.bytes = x.serialize_extended_pubkey.bytes ++ x.checksum ∧
    x.bytes.drop 78 = x.checksum := by
  obtain ⟨⟨hv, hdep, hfp, hcn, hcc, hpk⟩, hchk⟩ := h
  set s := x.serialize_extended_pubkey with hs
  have hb : s.bytes = s.version ++ ([s.depth] ++ (s.parent_fingerprint ++
      (s.child_number ++ (s.chain_code ++ s.compressed_pubkey)))) := by
    simp [serialized_extended_pubkey_t.bytes]
  have hlen : s.bytes.length = 78 := by
    rw [hb]
    simp [hv, hfp, hcn, hcc, hpk]
  have hd4 : s.bytes.drop 4 = [s.depth] ++ (s.parent_fingerprint ++
      (s.child_number ++ (s.chain_code ++ s.compressed_pubkey))) := by
    rw [hb]
    exact List.drop_left' hv
  have hd5 : s.bytes.drop 5 = s.parent_fingerprint ++
      (s.child_number ++ (s.chain_code ++ s.compressed_pubkey)) := by
    rw [show (5 : Nat) = 4 + 1 from rfl, ← List.drop_drop, hd4]
    exact List.drop_left' rfl
  have hd9 : s.bytes.drop 9 = s.child_number ++
      (s.chain_code ++ s.compressed_pubkey) := by
    rw [show (9 : Nat) = 5 + 4 from rfl, ← List.drop_drop, hd5]
    exact List.drop_left' hfp
  have hd13 : s.bytes.drop 13 = s.chain_code ++ s.compressed_pubkey := by
    rw [show (13 : Nat) = 9 + 4 from rfl, ← List.drop_drop, hd9]
    exact List.drop_left' hcn
  have hd45 : s.bytes.drop 45 = s.compressed_pubkey := by
    rw [show (45 : Nat) = 13 + 32 from rfl, ← List.drop_drop, hd13]
    exact List.drop_left' hcc
  refine ⟨hlen, ?_, ?_, ?_, ?_, ?_, ?_, hd45, rfl, ?_⟩
  · rw [serialized_extended_pubkey_check_t.bytes]
    simp [hlen, hchk]
  · rw [hb]
    exact List.take_left' hv
  · rw [hd4]
    exact List.take_left' rfl
  · rw [hd5]
    exact List.take_left' hfp
  · rw [hd9]
    exact List.take_left' hcn
  · rw [hd13]
    exact List.take_left' hcc
  · rw [serialized_extended_pubkey_check_t.bytes]
    exact List.drop_left' hlen

/-- C10: `crypto_hash_update_u32` is the same `cx_hash` call as
`crypto_hash_update` with the 4-byte big-endian encoding of `d` (most
significant byte first), with the same result; `crypto_hash_update_u16`
likewise with the 2-byte big-endian encoding. -/
theorem hash_update_u32_u16_big_endian
    (cx_hash : List Nat → List Nat → List Nat × Int) (ctx : List Nat) (d : Nat) :
    crypto_hash_update_u32 cx_hash ctx d =
      crypto_hash_update cx_hash ctx
        [d / 16777216 % 256, d / 65536 % 256, d / 256 % 256, d % 256] ∧
    crypto_hash_update_u16 cx_hash ctx d =
      crypto_hash_update cx_hash ctx [d / 256 % 256, d % 256] := by
  constructor
  · rw [crypto_hash_update_u32, write_u32_be]
    have : beBytes 4 d = [d / 16777216 % 256, d / 65536 % 256, d / 256 % 256, d % 256] := by
      simp [beBytes, Nat.div_div_eq_div_mul]
    rw [this]
  · rw [crypto_hash_update_u16, write_u16_be]
    have : beBytes 2 d = [d / 256 % 256, d % 256] := by
      simp [beBytes, Nat.div_div_eq_div_mul]
    rw [this]

/-!
## Concrete instances and witnesses
-/

/-- A concrete provider for evaluating the model: constant HMAC and
hash160, big-endian point serialization. -/
def provZ : Provider :=
  { hmac512 := fun _ _ => List.replicate 64 0
    hash160 := fun _ => List.replicate 20 3
    serP := fun k => 2 :: beBytes 32 k }

/-- A concrete stand-in for the external SHA-256. -/
def shaC : List Nat → List Nat := fun _ => List.replicate 32 7

/-- Witness for C1 at the concrete normal path [1, 2]. -/
theorem private_path_matches_ckdpub_chain_witness :
    List.foldlM (bip32_CKDpub provZ)
        (rootXpub 1 (List.replicate 32 0) (List.replicate 4 0)) [1, 2] =
      .ok { version := List.replicate 4 0, depth := 2,
            parent_fingerprint := [3, 3, 3, 3], child_number := [0, 0, 0, 2],
            chain_code := List.replicate 32 0, point := 1 } :=
  (private_path_matches_ckdpub_chain provZ 1 (List.replicate 32 0)
      (List.replicate 4 0) [1, 2] (by decide) (by decide) _ (by decide)).1

/-- Witness for C2 at the concrete hardened index 0x80000000. -/
theorem ckdpub_hardened_fails_witness :
    bip32_CKDpub provZ (rootXpub 1 (List.replicate 32 0) (List.replicate 4 0))
        (2 ^ 31) = .error .invalidParameter ∧
    retCode (bip32_CKDpub provZ
        (rootXpub 1 (List.replicate 32 0) (List.replicate 4 0)) (2 ^ 31)) < 0 :=
  ⟨(ckdpub_hardened_fails provZ _ _ (by decide)).1,
   (ckdpub_hardened_fails provZ _ _ (by decide)).2.1⟩

/-- Witness for C3 at the point (2, 2) on y² = x³ + 7 over GF(11). -/
theorem crypto_pubkey_compress_decompress_inverse_witness :
    crypto_get_compressed_pubkey (4 :: (beBytes 32 2 ++ beBytes 32 2)) =
      some (2 :: beBytes 32 2) ∧
    crypto_get_uncompressed_pubkey 11 (2 :: beBytes 32 2) =
      some (4 :: (beBytes 32 2 ++ beBytes 32 2)) := by
  have h := crypto_pubkey_compress_decompress_inverse 11 (2 :: beBytes 32 2)
    (4 :: (beBytes 32 2 ++ beBytes 32 2)) (by decide) (by decide) (by decide)
  refine ⟨?_, ?_⟩
  · exact h.1 (by decide)
  · obtain ⟨kc, hc, hd⟩ := h.2 ⟨beBytes 32 2, beBytes 32 2, rfl, by decide, by decide,
      by decide, by decide, by decide, by decide, by decide⟩
    have hkc : kc = 2 :: beBytes 32 2 := by
      have h2 : crypto_get_compressed_pubkey (4 :: (beBytes 32 2 ++ beBytes 32 2)) =
          some (2 :: beBytes 32 2) := by decide
      rw [hc] at h2
      exact Option.some.inj h2
    rw [← hkc]
    exact hd

/-- Witness for C4 at a concrete well-formed struct. -/
theorem serialized_extended_pubkey_layout_witness :
    (⟨⟨[0, 0, 0, 0], 0, [0, 0, 0, 0], [0, 0, 0, 0], List.replicate 32 0,
        List.replicate 33 0⟩, [0, 0, 0, 0]⟩ :
      serialized_extended_pubkey_check_t).bytes.length = 82 ∧
    (⟨⟨[0, 0, 0, 0], 0, [0, 0, 0, 0], [0, 0, 0, 0], List.replicate 32 0,
        List.replicate 33 0⟩, [0, 0, 0, 0]⟩ :
      serialized_extended_pubkey_check_t).serialize_extended_pubkey.bytes.length = 78 :=
  ⟨(serialized_extended_pubkey_layout _ (by decide)).2.1,
   (serialized_extended_pubkey_layout _ (by decide)).1⟩

/-- Witness for C5 at version 0, a constant 20-byte hash, out_len 100. -/
theorem base58_encode_address_spec_witness :
    base58_encode_address shaC (List.replicate 20 5) 0 100 =
      b58addrSpec shaC (beBytes 1 0) (List.replicate 20 5) 100 ∧
    ((base58_encode_address shaC (List.replicate 20 5) 0 2).1 = -1 ↔
      2 < (base58_encode (versionBytes 0 ++ List.replicate 20 5 ++
        crypto_get_checksum shaC (versionBytes 0 ++ List.replicate 20 5))).length) :=
  ⟨(base58_encode_address_spec shaC (List.replicate 20 5) 0 100 (by decide)).1
      (by decide),
   (base58_encode_address_spec shaC (List.replicate 20 5) 0 2 (by decide)).2.2.2⟩

/-- Witness for C7 (amended) at the empty path. -/
theorem serialized_pubkey_returns_length_witness :
    ∃ r, get_serialized_extended_pubkey_at_path provZ shaC 1
        (List.replicate 32 0) [] 0 = .ok r ∧ r.1 = r.2.length := by
  cases hx : get_serialized_extended_pubkey_at_path provZ shaC 1
      (List.replicate 32 0) [] 0 with
  | error e => cases e <;> exact absurd hx (by decide)
  | ok r =>
    exact ⟨r, rfl,
      serialized_pubkey_returns_length provZ shaC 1 (List.replicate 32 0) [] 0 r hx⟩

/-- Witness for C8: a depth-0 parent at the concrete index 5, and a
depth-255 parent. -/
theorem ckdpub_depth_succ_witness :
    (bip32_CKDpub provZ (rootXpub 1 (List.replicate 32 0) (List.replicate 4 0))
        5).map xpub_t.depth = .ok 1 ∧
    bip32_CKDpub provZ
        { rootXpub 1 (List.replicate 32 0) (List.replicate 4 0) with depth := 255 }
        5 = .error .invalidParameter := by
  constructor
  · cases hc : bip32_CKDpub provZ
        (rootXpub 1 (List.replicate 32 0) (List.replicate 4 0)) 5 with
    | error e => cases e <;> exact absurd hc (by decide)
    | ok child =>
      have hd := (ckdpub_depth_succ provZ
        (rootXpub 1 (List.replicate 32 0) (List.replicate 4 0)) 5).1 child hc
      simp only [rootXpub] at hd
      simp [Except.map, hd]
  · exact ((ckdpub_depth_succ provZ
      { rootXpub 1 (List.replicate 32 0) (List.replicate 4 0) with depth := 255 }
      5).2 rfl).1

end Crypto

